import Mathlib

/-!
# Verification of the kb-mcp sync/search core

A shallow embedding of the algorithmic core of the kb-mcp repository:
the sentence chunker (`src/sync/chunker.ts`), the embedding response
validation (`src/search/embeddings.ts`), the search formatting and
deduplication (`src/search/index.ts`), the staleness diff and article
store operations (`src/db/articles.ts`), the chunk store operations
(`src/db/chunks.ts`), and the sync coordinator (`src/sync/index.ts`).

JavaScript strings are modelled as `List Char`; JavaScript numbers used
as integer token counts, sizes and timestamps are modelled as `Nat`/`Int`
(all arithmetic in the embedded code is small-integer arithmetic, far
from any floating point rounding); cosine distances and relevance scores
are modelled as `ℚ`.
-/

/-- JavaScript strings, modelled as lists of characters. -/
abbrev JStr := List Char

/-- `estimateTokenCount` (src/search/embeddings.ts): `Math.ceil(text.length / 4)`. -/
def estimateTokenCount (s : JStr) : Nat := (s.length + 3) / 4

/-- The JavaScript `\s` character class (the whitespace characters that occur in
the embedded code paths): space, tab, newline, carriage return, vertical tab, form feed. -/
def jsIsSpace (c : Char) : Bool :=
  c == ' ' || c == '\t' || c == '\n' || c == '\r' || c == '\x0b' || c == '\x0c'

/-- The sentence-delimiter punctuation class `[.!?]` of the chunker regex. -/
def isPunct (c : Char) : Bool := c == '.' || c == '!' || c == '?'

/-- JavaScript `String.prototype.trim`: drop leading and trailing whitespace. -/
def jsTrim (s : JStr) : JStr :=
  ((s.dropWhile jsIsSpace).reverse.dropWhile jsIsSpace).reverse

/-- Try to match the chunker delimiter regex `[.!?]+\s+|\n\n` at the head of `cs`.
On success, return the matched text and the remainder.  The two character
classes `[.!?]` and `\s` are disjoint, so the greedy match either takes a
nonempty punctuation run followed by a nonempty (maximal) whitespace run, or
it takes a literal blank line. -/
def matchDelim (cs : JStr) : Option (JStr × JStr) :=
  if (cs.takeWhile isPunct).isEmpty then
    match cs with
    | '\n' :: '\n' :: rest => some (['\n', '\n'], rest)
    | _ => none
  else if ((cs.dropWhile isPunct).takeWhile jsIsSpace).isEmpty then
    none
  else
    some (cs.takeWhile isPunct ++ (cs.dropWhile isPunct).takeWhile jsIsSpace,
      (cs.dropWhile isPunct).dropWhile jsIsSpace)

/-- Fuelled scanner for `text.split(/([.!?]+\s+|\n\n)/)`: at each position try
the delimiter regex; on a match close the current part, else shift one
character onto the part.  The fuel only serves structural recursion; by
`matchDelim_rest_lt` a fuel of `length` never runs out. -/
def splitPartsF : Nat → JStr → List (JStr × JStr)
  | _, [] => [([], [])]
  | 0, _ :: _ => [([], [])]
  | fuel + 1, c :: rest =>
    match matchDelim (c :: rest) with
    | some (m, r) => ([], m) :: splitPartsF fuel r
    | none =>
      match splitPartsF fuel rest with
      | [] => [([c], [])]
      | (p, d) :: tail => (c :: p, d) :: tail

/-- `text.split(/([.!?]+\s+|\n\n)/)` (src/sync/chunker.ts `splitIntoSentences`),
returned as the list of (unmatched part, following delimiter) pairs; the last
part is paired with the empty delimiter, matching the JavaScript array
`[p0, m0, p1, m1, ..., pk]` regrouped as `[(p0,m0), ..., (pk, "")]`. -/
def splitParts (cs : JStr) : List (JStr × JStr) := splitPartsF cs.length cs

/-- `splitIntoSentences` (src/sync/chunker.ts): recombine each part with its
delimiter and keep those whose `trim()` is nonempty (i.e. that contain a
non-whitespace character). -/
def splitIntoSentences (text : JStr) : List JStr :=
  (splitParts text).foldr
    (fun pd acc =>
      let s := pd.1 ++ pd.2
      if s.any (fun c => !jsIsSpace c) then s :: acc else acc) []

/-- `TextChunk` (src/sync/chunker.ts). -/
structure TextChunk where
  text : JStr
  index : Nat
  tokenCount : Nat
deriving Repr, DecidableEq

/-- `chunks.push({text, index: chunks.length, tokenCount})` — every emission
site in `chunkText` pushes with `index: chunks.length`. -/
def pushChunk (chunks : List TextChunk) (text : JStr) (tokenCount : Nat) : List TextChunk :=
  chunks ++ [{ text := text, index := chunks.length, tokenCount := tokenCount }]

/-- `arr.join(' ')`. -/
def joinSp (parts : List JStr) : JStr := List.intercalate [' '] parts

/-- Scanner for `sentence.split(/\s+/)`: `part` is the reversed current part,
`inRun` records whether the previous character was whitespace (so that a
maximal whitespace run acts as a single separator). -/
def jsSplitWsGo : JStr → JStr → Bool → List JStr
  | [], part, _ => [part.reverse]
  | c :: rest, part, inRun =>
    if jsIsSpace c then
      if inRun then jsSplitWsGo rest [] true
      else part.reverse :: jsSplitWsGo rest [] true
    else jsSplitWsGo rest (c :: part) false

/-- `sentence.split(/\s+/)`: split on maximal whitespace runs (boundary runs
produce empty parts, as in JavaScript). -/
def jsSplitWs (s : JStr) : List JStr := jsSplitWsGo s [] false

/-- One iteration of the word loop in the oversized-sentence fallback of
`chunkText` (src/sync/chunker.ts lines 78–91): state is
(chunks so far, current word chunk `wordChunk`, current token sum
`wordTokens`).  When adding the word would exceed the budget and the word
chunk is nonempty, the word chunk is flushed first; the word is then pushed
onto the (possibly freshly reset) word chunk, its padded token estimate
added. -/
def wordStep (tp : JStr) (tt : Nat) (eff : Int)
    (st : List TextChunk × List JStr × Nat) (w : JStr) : List TextChunk × List JStr × Nat :=
  if (st.2.2 : Int) + estimateTokenCount (w ++ [' ']) > eff ∧ st.2.1 ≠ [] then
    (pushChunk st.1 (tp ++ joinSp st.2.1) (tt + st.2.2), [w],
      estimateTokenCount (w ++ [' ']))
  else
    (st.1, st.2.1 ++ [w], st.2.2 + estimateTokenCount (w ++ [' ']))

/-- The trailing flush shared by the word loop (src/sync/chunker.ts lines
93–99) and the sentence loop (lines 139–145): emit the pending chunk when it
is nonempty. -/
def flushTail (tp : JStr) (tt : Nat) (st : List TextChunk × List JStr × Nat) :
    List TextChunk :=
  if st.2.1 ≠ [] then pushChunk st.1 (tp ++ joinSp st.2.1) (tt + st.2.2) else st.1

/-- The oversized-sentence fallback of `chunkText` (src/sync/chunker.ts lines
72–102): split the sentence at word boundaries and emit sub-chunks, with a
final flush of the remaining word chunk. -/
def fallbackSplit (tp : JStr) (tt : Nat) (eff : Int)
    (sentence : JStr) (chunks : List TextChunk) : List TextChunk :=
  flushTail tp tt ((jsSplitWs sentence).foldl (wordStep tp tt eff) (chunks, [], 0))

/-- The backward overlap walk of `chunkText` (src/sync/chunker.ts lines
115–128), applied to the reversed current chunk: stop before the overlap
budget is exceeded, prepending kept sentences. -/
def overlapSeedGo (ov : Int) : List JStr → List JStr → Nat → List JStr × Nat
  | [], acc, t => (acc, t)
  | s :: rest, acc, t =>
    let tk := estimateTokenCount s
    if (t : Int) + tk > ov then (acc, t)
    else overlapSeedGo ov rest (s :: acc) (t + tk)

/-- `overlapSentences` / `overlapTokens` seeding for the next chunk. -/
def overlapSeed (ov : Int) (cur : List JStr) : List JStr × Nat :=
  overlapSeedGo ov cur.reverse [] 0

/-- One iteration of the sentence loop of `chunkText` (src/sync/chunker.ts
lines 67–136): state is (chunks, currentChunk, currentTokens).  An oversized
sentence meeting an empty current chunk goes through the word-splitting
fallback (`continue`, leaving the current chunk untouched); otherwise the
current chunk is flushed and reseeded with the overlap suffix when the
sentence would overflow it, and the sentence is then appended. -/
def chunkStep (tp : JStr) (tt : Nat) (eff ov : Int)
    (st : List TextChunk × List JStr × Nat) (s : JStr) : List TextChunk × List JStr × Nat :=
  if (estimateTokenCount s : Int) > eff ∧ st.2.1 = [] then
    (fallbackSplit tp tt eff s st.1, st.2.1, st.2.2)
  else if (st.2.2 : Int) + estimateTokenCount s > eff ∧ st.2.1 ≠ [] then
    (pushChunk st.1 (tp ++ joinSp st.2.1) (tt + st.2.2),
      (overlapSeed ov st.2.1).1 ++ [s], (overlapSeed ov st.2.1).2 + estimateTokenCount s)
  else
    (st.1, st.2.1 ++ [s], st.2.2 + estimateTokenCount s)

/-- The title prefix `"# {title}\n\n"`. -/
def titlePrefix (title : JStr) : JStr := '#' :: ' ' :: (title ++ ['\n', '\n'])

/-- `chunkText` (src/sync/chunker.ts): split `text` into title-prefixed chunks
targeting `targetSize` tokens with `ov` tokens of sentence overlap.  The
TypeScript defaults are `targetSize = 500`, `ov = 50`; the effective budget
is `targetSize` minus the title prefix estimate. -/
def chunkText (text title : JStr) (targetSize ov : Int) : List TextChunk :=
  if (splitIntoSentences text).isEmpty then
    [{ text := jsTrim (titlePrefix title), index := 0,
       tokenCount := estimateTokenCount (jsTrim (titlePrefix title)) }]
  else
    flushTail (titlePrefix title) (estimateTokenCount (titlePrefix title))
      ((splitIntoSentences text).foldl
        (chunkStep (titlePrefix title) (estimateTokenCount (titlePrefix title))
          (targetSize - estimateTokenCount (titlePrefix title)) ov)
        ([], [], 0))

/-! ## Search engine (src/search/embeddings.ts, src/search/index.ts) -/

/-- `OllamaConfig` (src/config/schema.ts): embedding service base URL and
model name (defaults `http://localhost:11434` and `nomic-embed-text`). -/
structure OllamaConfig where
  baseUrl : String
  model : String
deriving Repr, DecidableEq

/-- The response-validation logic of `generateEmbedding`
(src/search/embeddings.ts lines 70–84).  The network fetch and JSON parsing
are I/O collaborators; `embedding` is the parsed `data.embedding` field
(`none` when the field is missing or not an array; vector entries are opaque
to every claim and modelled as rationals).  The error strings are exactly the
messages thrown by the source. -/
def validateEmbeddingResponse (config : OllamaConfig) (embedding : Option (List ℚ)) :
    Except JStr (List ℚ) :=
  match embedding with
  | none => Except.error "Invalid embedding response from Ollama".toList
  | some v =>
    if v.length ≠ 768 then
      Except.error ("Expected 768-dimensional embedding, got ".toList ++
        (toString v.length).toList ++
        ". Make sure you\x27re using the nomic-embed-text model.".toList)
    else Except.ok v

/-- A raw row returned by `searchSimilarChunks` (src/db/chunks.ts
`SearchResult`); `distance` is the cosine distance reported by the vector
index, modelled as a rational. -/
structure SearchResult where
  chunkId : Nat
  articleId : Nat
  sourceId : String
  title : String
  url : String
  text : JStr
  distance : ℚ
deriving Repr, DecidableEq

/-- `FormattedSearchResult` (src/search/index.ts). -/
structure FormattedSearchResult where
  title : String
  url : String
  excerpt : JStr
  sourceId : String
  relevance : ℚ
deriving Repr, DecidableEq

/-- `result.text.replace(/\s+/g, ' ').trim()` (src/search/index.ts lines
52–54): collapsing each maximal whitespace run to one space is rejoining the
`/\s+/`-split parts with single spaces; then trim. -/
def collapseWs (s : JStr) : JStr := jsTrim (joinSp (jsSplitWs s))

/-- `formatSearchResult` (src/search/index.ts lines 46–63):
`relevance = Math.max(0, 1 - distance / 2)`. -/
def formatSearchResult (result : SearchResult) : FormattedSearchResult :=
  { title := result.title
    url := result.url
    excerpt := collapseWs result.text
    sourceId := result.sourceId
    relevance := max 0 (1 - result.distance / 2) }

/-- The result post-processing `search` itself applies (src/search/index.ts
line 40): each raw row is formatted independently — `search` never calls
`deduplicateResults`. -/
def searchFormatResults (results : List SearchResult) : List FormattedSearchResult :=
  results.map formatSearchResult

/-- `Math.min(options.limit || 5, 20)` (src/search/index.ts line 26): `none`
models an omitted `limit`; `0` is falsy in JavaScript, so it too falls back
to the default 5. -/
def searchLimit (limit : Option Int) : Int :=
  min (match limit with
       | none => 5
       | some n => if n = 0 then 5 else n) 20

/-- JavaScript `Map.prototype.get` on an insertion-ordered association list. -/
def jsMapGet {κ α : Type} [DecidableEq κ] : List (κ × α) → κ → Option α
  | [], _ => none
  | (k1, v1) :: rest, k => if k1 = k then some v1 else jsMapGet rest k

/-- JavaScript `Map.prototype.set`: overwrite in place when the key exists,
else append in insertion order. -/
def jsMapSet {κ α : Type} [DecidableEq κ] : List (κ × α) → κ → α → List (κ × α)
  | [], k, v => [(k, v)]
  | (k1, v1) :: rest, k, v =>
    if k1 = k then (k, v) :: rest else (k1, v1) :: jsMapSet rest k v

/-- Insertion step of the stable sort implementing
`arr.sort((a, b) => b.relevance - a.relevance)` (descending relevance). -/
def insertDesc (x : FormattedSearchResult) :
    List FormattedSearchResult → List FormattedSearchResult
  | [] => [x]
  | y :: ys => if y.relevance < x.relevance then x :: y :: ys else y :: insertDesc x ys

/-- Stable sort by descending relevance
(`Array.from(seen.values()).sort((a, b) => b.relevance - a.relevance)`). -/
def sortByRelevanceDesc : List FormattedSearchResult → List FormattedSearchResult
  | [] => []
  | x :: xs => insertDesc x (sortByRelevanceDesc xs)

/-- The loop body of `deduplicateResults` (src/search/index.ts lines 71–79):
`seen.set(key, result)` unless an entry with relevance at least as high
already exists for the URL. -/
def dedupStep (m : List (String × FormattedSearchResult))
    (result : FormattedSearchResult) : List (String × FormattedSearchResult) :=
  match jsMapGet m result.url with
  | none => jsMapSet m result.url result
  | some existing =>
    if existing.relevance < result.relevance then jsMapSet m result.url result
    else m

/-- `deduplicateResults` (src/search/index.ts lines 68–83): keep, per URL, the
result with the highest relevance (a later result replaces only on strictly
greater relevance), then sort the retained results by descending relevance. -/
def deduplicateResults (results : List FormattedSearchResult) : List FormattedSearchResult :=
  sortByRelevanceDesc ((results.foldl dedupStep []).map Prod.snd)

/-! ## Store (src/db/schema.ts, src/db/articles.ts, src/db/chunks.ts,
src/db/sources.ts) -/

/-- An `articles` table row (schema in src/db/schema.ts: composite primary key
`(id, source_id)`).  ISO-8601 timestamp strings are modelled by the integers
(milliseconds) that their `new Date(...)` comparisons use. -/
structure ArticleRow where
  id : Nat
  sourceId : String
  title : JStr
  url : JStr
  sectionName : Option JStr
  categoryName : Option JStr
  updatedAt : Int
  syncedAt : Int
deriving Repr, DecidableEq

/-- A `chunks` table row (`id` is the AUTOINCREMENT primary key). -/
structure ChunkRow where
  id : Nat
  articleId : Nat
  sourceId : String
  chunkIndex : Nat
  text : JStr
  tokenCount : Nat
deriving Repr, DecidableEq

/-- `ChunkWithEmbedding` (src/db/chunks.ts): a chunk ready for insertion,
with its embedding vector. -/
structure ChunkWithEmbedding where
  articleId : Nat
  sourceId : String
  chunkIndex : Nat
  text : JStr
  tokenCount : Nat
  embedding : List ℚ
deriving Repr, DecidableEq

/-- The persistent store: the `articles` and `chunks` tables, the `chunks_vec`
vec0 virtual table (rowid ↦ embedding), the AUTOINCREMENT cursor for
`chunks.id`, and the `sources` rows restricted to the one column sync
touches, `last_synced_at`.  Per the schema, `chunks` has `ON DELETE CASCADE`
on its foreign key to `articles`, while `chunks_vec` is a virtual table with
no foreign key at all. -/
structure DBState where
  articles : List ArticleRow
  chunks : List ChunkRow
  vec : List (Nat × List ℚ)
  nextChunkId : Nat
  sources : List (String × Option Int)
deriving Repr, DecidableEq

/-- `upsertArticle` (src/db/articles.ts lines 27–50): `INSERT ... ON
CONFLICT(id, source_id) DO UPDATE` resetting every mutable column — replace
the row when the key exists, else append. -/
def upsertArticle (db : DBState) (a : ArticleRow) : DBState :=
  let replaced := db.articles.map
    (fun r => if r.id = a.id ∧ r.sourceId = a.sourceId then a else r)
  if db.articles.any (fun r => r.id == a.id && r.sourceId == a.sourceId) then
    { db with articles := replaced }
  else
    { db with articles := db.articles ++ [a] }

/-- `Set.prototype.add`: a JavaScript `Set` is a duplicate-free list in
insertion order. -/
def addSet (s : List Nat) (x : Nat) : List Nat := if x ∈ s then s else s ++ [x]

/-- `Map.prototype.delete` (first occurrence; keys are unique per the
articles table's composite primary key). -/
def eraseKey {α : Type} : List (Nat × α) → Nat → List (Nat × α)
  | [], _ => []
  | (k1, v1) :: rest, k => if k1 = k then rest else (k1, v1) :: eraseKey rest k

/-- `SELECT id, updated_at FROM articles WHERE source_id = ?`, as the
association list the `existingMap` of `getStaleArticleIds` is built from. -/
def articlesAssoc (db : DBState) (sourceId : String) : List (Nat × Int) :=
  (db.articles.filter (fun a => a.sourceId == sourceId)).map (fun a => (a.id, a.updatedAt))

/-- One iteration of the fresh-article loop of `getStaleArticleIds`
(src/db/articles.ts lines 110–121): flag the id when it is absent from the
local map or the fresh timestamp is strictly newer (`freshDate > existing`),
then delete the id from the map. -/
def staleStep (st : List Nat × List (Nat × Int)) (f : Nat × Int) :
    List Nat × List (Nat × Int) :=
  (match jsMapGet st.2 f.1 with
   | none => addSet st.1 f.1
   | some t => if t < f.2 then addSet st.1 f.1 else st.1,
   eraseKey st.2 f.1)

/-- The closing loop of `getStaleArticleIds` (src/db/articles.ts lines
123–127): every id remaining in the map has been deleted upstream — flag it
too. -/
def staleFoldFinish (st : List Nat × List (Nat × Int)) : List Nat :=
  st.2.foldl (fun s p => addSet s p.1) st.1

/-- `getStaleArticleIds` (src/db/articles.ts lines 96–130): walk the fresh
summaries, flagging each id that is absent locally or strictly newer than the
local row, deleting each visited id from the local map; finally flag every id
left in the map (present locally, absent from the fresh listing). -/
def getStaleArticleIds (db : DBState) (sourceId : String)
    (fresh : List (Nat × Int)) : List Nat :=
  staleFoldFinish (fresh.foldl staleStep (([] : List Nat), articlesAssoc db sourceId))

/-- `deleteChunksByArticle` (src/db/chunks.ts lines 99–114): collect the
article's chunk ids, delete those rowids from `chunks_vec`, then delete the
rows from `chunks`. -/
def deleteChunksByArticle (db : DBState) (articleId : Nat) (sourceId : String) : DBState :=
  let ids := (db.chunks.filter
    (fun c => c.articleId == articleId && c.sourceId == sourceId)).map (fun c => c.id)
  let keptVec := db.vec.filter (fun v => !(ids.contains v.1))
  let keptChunks := db.chunks.filter
    (fun c => !(c.articleId == articleId && c.sourceId == sourceId))
  { db with vec := keptVec, chunks := keptChunks }

/-- `insertChunk` (src/db/chunks.ts lines 28–59): append the chunk row under
the next AUTOINCREMENT id, then insert the embedding into `chunks_vec` under
that same rowid. -/
def insertChunk (db : DBState) (c : ChunkWithEmbedding) : DBState :=
  let row : ChunkRow := { id := db.nextChunkId, articleId := c.articleId,
                          sourceId := c.sourceId, chunkIndex := c.chunkIndex,
                          text := c.text, tokenCount := c.tokenCount }
  { db with chunks := db.chunks ++ [row], vec := db.vec ++ [(db.nextChunkId, c.embedding)],
            nextChunkId := db.nextChunkId + 1 }

/-- `insertChunksBatch` (src/db/chunks.ts lines 64–72). -/
def insertChunksBatch (db : DBState) (cs : List ChunkWithEmbedding) : DBState :=
  cs.foldl insertChunk db

/-- `deleteArticle` (src/db/articles.ts lines 135–139): delete the article
row; the foreign key cascades to the article's `chunks` rows.  `chunks_vec`
has no foreign key, so its rows are untouched. -/
def deleteArticle (db : DBState) (articleId : Nat) (sourceId : String) : DBState :=
  let keptArticles := db.articles.filter
    (fun a => !(a.id == articleId && a.sourceId == sourceId))
  let keptChunks := db.chunks.filter
    (fun c => !(c.articleId == articleId && c.sourceId == sourceId))
  { db with articles := keptArticles, chunks := keptChunks }

/-- `updateLastSynced` (src/db/sources.ts lines 144–147). -/
def updateLastSynced (db : DBState) (sourceId : String) (now : Int) : DBState :=
  let updated := db.sources.map (fun p => if p.1 = sourceId then (p.1, some now) else p)
  { db with sources := updated }

/-! ## Sync coordinator (src/sync/index.ts) -/

/-- A fetched (published) article as returned by `fetchAllArticles`
(src/sync/zendesk.ts): origin id, title, HTML body, section id, origin
`updated_at`, public URL. -/
structure FetchedArticle where
  id : Nat
  title : JStr
  body : JStr
  section_id : Nat
  updated_at : Int
  html_url : JStr
deriving Repr, DecidableEq

/-- `syncSource` (src/sync/index.ts lines 30–241) as a state transformer on
the store.  The I/O collaborators are parameters: `parse` is
`parseHTMLStructured`, `embed` the per-text embedding vector delivered by
`generateEmbeddingsBatch` (which returns vectors in input order, so the
positional `embeddings[embeddingIndex++]` assignment pairs each chunk with
the embedding of its own text); `fetched` is the listing returned by
`fetchAllArticles`, `sections`/`categories` the id→name maps, `now` the wall
clock used for `synced_at` / `last_synced_at`.  When no fetched article is
stale the function returns early (lines 70–85) without any store write;
otherwise the storing transaction processes each stale fetched article
(delete chunks, upsert article, insert fresh chunk/embedding pairs), then
deletes every article of the source absent from the fetched listing, then
advances the source's last-synced timestamp. -/
def syncSource (parse : JStr → JStr) (embed : JStr → List ℚ)
    (db : DBState) (sourceId : String) (fetched : List FetchedArticle)
    (sections categories : List (Nat × JStr))
    (chunkSize chunkOverlap : Int) (fullResync : Bool) (now : Int) : DBState :=
  let summaries := fetched.map (fun a => (a.id, a.updated_at))
  let staleIds := if fullResync then fetched.map (fun a => a.id)
    else getStaleArticleIds db sourceId summaries
  let toProcess := fetched.filter (fun a => staleIds.contains a.id)
  if toProcess.isEmpty then db
  else
    let db1 := toProcess.foldl
      (fun d a =>
        let d1 := deleteChunksByArticle d a.id sourceId
        let d2 := upsertArticle d1
          { id := a.id, sourceId := sourceId, title := a.title, url := a.html_url,
            sectionName := jsMapGet sections a.section_id,
            categoryName := jsMapGet categories a.section_id,
            updatedAt := a.updated_at, syncedAt := now }
        insertChunksBatch d2
          ((chunkText (parse a.body) a.title chunkSize chunkOverlap).map
            (fun c => { articleId := a.id, sourceId := sourceId,
                        chunkIndex := c.index, text := c.text,
                        tokenCount := c.tokenCount,
                        embedding := embed c.text })))
      db
    let validIds := fetched.map (fun a => a.id)
    let currentIds :=
      (db1.articles.filter (fun a => a.sourceId == sourceId)).map (fun a => a.id)
    let db2 := currentIds.foldl
      (fun d i => if validIds.contains i then d else deleteArticle d i sourceId) db1
    updateLastSynced db2 sourceId now

/-- Substring containment, used to state that an error message names a
model. -/
abbrev containsStr (s sub : JStr) : Prop := sub <:+: s

/-! ## Verification predicates -/

/-- Chunk indices are exactly `0..count-1` in emission order. -/
def ChunkIndicesOk (cs : List TextChunk) : Prop :=
  cs.map TextChunk.index = List.range cs.length

/-- Bound satisfied by a sub-chunk emitted by the oversized-sentence
fallback: its token weight (excluding the title prefix) is within the
effective budget, or it is a single word of the sentence whose own padded
token estimate already exceeds the budget (such a word cannot be split
further at word boundaries). -/
def SubChunkOk (tp : JStr) (tt : Nat) (eff : Int) (words : List JStr)
    (c : TextChunk) : Prop :=
  ((c.tokenCount : Int) - tt ≤ eff) ∨
  (∃ w ∈ words, c.text = tp ++ w ∧
    (eff : Int) < (estimateTokenCount (w ++ [' ']) : Int) ∧
    c.tokenCount = tt + estimateTokenCount (w ++ [' ']))

/-- Invariant of the word-loop state of the fallback: the pending word chunk
is empty with zero weight, or nonempty with weight within budget, or a
single over-budget word. -/
def WcInv (eff : Int) (words : List JStr) (wc : List JStr) (wt : Nat) : Prop :=
  (wc = [] ∧ wt = 0) ∨
  (wc ≠ [] ∧ ((wt : Int) ≤ eff ∨
    ∃ w ∈ words, wc = [w] ∧ wt = estimateTokenCount (w ++ [' ']) ∧
      (eff : Int) < (wt : Int)))

/-- Invariant of the `seen` map of `deduplicateResults` after the already
`processed` prefix of the input: keys are distinct, every entry is keyed by
its value's URL, holds a processed result that dominates (by relevance) every
processed result with its URL, and every processed URL has an entry. -/
def DedupInv (processed : List FormattedSearchResult)
    (m : List (String × FormattedSearchResult)) : Prop :=
  (m.map Prod.fst).Nodup ∧
  (∀ p ∈ m, p.2.url = p.1 ∧ p.2 ∈ processed ∧
    ∀ s ∈ processed, s.url = p.1 → s.relevance ≤ p.2.relevance) ∧
  (∀ s ∈ processed, ∃ p ∈ m, p.1 = s.url)

/-! ## Theorems -/

/-- A delimiter match always consumes at least one character, so in
`splitPartsF` a fuel of `cs.length` never runs out. -/
theorem matchDelim_rest_lt (cs m r : JStr) (h : matchDelim cs = some (m, r)) :
    r.length < cs.length := by
  unfold matchDelim at h
  split at h
  · split at h
    · cases h
      simp only [List.length_cons]
      omega
    · exact Option.noConfusion h
  · next hp =>
    split at h
    · exact Option.noConfusion h
    · cases h
      have h1 : (cs.dropWhile isPunct).dropWhile jsIsSpace <:+ cs.dropWhile isPunct :=
        List.dropWhile_suffix _
      have h2 := h1.length_le
      have h3 : (cs.takeWhile isPunct).length + (cs.dropWhile isPunct).length
          = cs.length := by
        rw [← List.length_append, List.takeWhile_append_dropWhile]
      have h4 : (cs.takeWhile isPunct).length ≠ 0 := by
        intro h0
        exact hp (by simpa [List.isEmpty_iff, List.length_eq_zero] using h0)
      omega

/-- **C10** — falsy limit fallback in `search`: an explicit `limit` of `0` is
falsy in JavaScript, so `Math.min(options.limit || 5, 20)` treats it exactly
like an omitted limit: both request the default of 5 candidates. -/
theorem searchLimit_zero_is_default :
    searchLimit (some 0) = searchLimit none ∧ searchLimit (some 0) = 5 :=
  ⟨rfl, rfl⟩

/-- **C7** — relevance mapping: every search result's relevance is
`max(0, 1 − d/2)` of its raw cosine distance `d`; under `0 ≤ d ≤ 2` the
relevance lies in `[0, 1]`, and `d = 0` yields relevance exactly 1. -/
theorem formatSearchResult_relevance (r : SearchResult) :
    (formatSearchResult r).relevance = max 0 (1 - r.distance / 2) ∧
    (0 ≤ r.distance → r.distance ≤ 2 →
      0 ≤ (formatSearchResult r).relevance ∧ (formatSearchResult r).relevance ≤ 1) ∧
    (r.distance = 0 → (formatSearchResult r).relevance = 1) := by
  refine ⟨rfl, fun h0 h2 => ⟨le_max_left _ _, ?_⟩, fun h => ?_⟩
  · apply max_le (by norm_num)
    linarith
  · simp [formatSearchResult, h]

/-- Witness for `formatSearchResult_relevance` at distance `1/2`. -/
theorem formatSearchResult_relevance_witness :
    (0 : ℚ) ≤ (1 / 2 : ℚ) ∧ (1 / 2 : ℚ) ≤ 2 ∧
    (0 ≤ (formatSearchResult ⟨1, 1, "s", "t", "u", [], 1 / 2⟩).relevance ∧
      (formatSearchResult ⟨1, 1, "s", "t", "u", [], 1 / 2⟩).relevance ≤ 1) :=
  ⟨by norm_num, by norm_num,
    (formatSearchResult_relevance ⟨1, 1, "s", "t", "u", [], 1 / 2⟩).2.1
      (by norm_num) (by norm_num)⟩

set_option maxRecDepth 8000 in
/-- **C3 (counterexample)** — with configured model `"mymodel"` and a
5-element response vector, `generateEmbedding` raises a dimension-mismatch
error whose message does NOT name the configured model: the message hardcodes
`nomic-embed-text`. -/
theorem validateEmbedding_counterexample :
    ∃ m, validateEmbeddingResponse ⟨"http://localhost:11434", "mymodel"⟩
        (some [0, 0, 0, 0, 0]) = Except.error m ∧
      ¬ containsStr m "mymodel".toList :=
  ⟨_, rfl, by decide⟩

/-- **C3 (amended)** — dimension-mismatch error: for every embedding-endpoint
response whose vector length differs from 768, `generateEmbedding` raises an
error; the message reports the received length and names the hardcoded
default model `nomic-embed-text` — not, in general, the configured model. -/
theorem validateEmbedding_dimension_error (config : OllamaConfig) (v : List ℚ)
    (h : v.length ≠ 768) :
    ∃ m, validateEmbeddingResponse config (some v) = Except.error m ∧
      containsStr m "nomic-embed-text".toList := by
  refine ⟨"Expected 768-dimensional embedding, got ".toList ++
      (toString v.length).toList ++
      ". Make sure you\x27re using the nomic-embed-text model.".toList, ?_, ?_⟩
  · simp [validateEmbeddingResponse, h]
  · have h1 : "nomic-embed-text".toList <:+:
        ". Make sure you\x27re using the nomic-embed-text model.".toList := by decide
    exact h1.trans (List.suffix_append _ _).isInfix

/-- Witness for `validateEmbedding_dimension_error` at a 3-element vector. -/
theorem validateEmbedding_dimension_error_witness :
    ([(0 : ℚ), 0, 0].length ≠ 768) ∧
    (∃ m, validateEmbeddingResponse ⟨"http://localhost:11434", "nomic-embed-text"⟩
        (some [0, 0, 0]) = Except.error m ∧
      containsStr m "nomic-embed-text".toList) :=
  ⟨by decide,
    validateEmbedding_dimension_error ⟨"http://localhost:11434", "nomic-embed-text"⟩
      [0, 0, 0] (by decide)⟩

/-- **C6 (counterexample)** — empty text: the single chunk returned for title
`"T"` has text `"# T"` (the trimmed prefix), not the full title prefix
`"# T\n\n"` the claim states. -/
theorem chunkText_empty_counterexample :
    chunkText [] ['T'] 500 50 = [⟨['#', ' ', 'T'], 0, 1⟩] ∧
    (chunkText [] ['T'] 500 50).map TextChunk.text ≠ [titlePrefix ['T']] := by
  constructor
  · decide
  · decide

/-- **C6 (amended)** — empty-text chunking: whenever the normalized text
splits into no sentences (empty, whitespace-only, or delimiter-only text),
`chunkText` returns exactly one chunk with index 0 whose text is the title
prefix with surrounding whitespace trimmed — `"# {title}"` without its
trailing blank line. -/
theorem chunkText_no_sentences (text title : JStr) (targetSize ov : Int)
    (h : splitIntoSentences text = []) :
    chunkText text title targetSize ov =
      [{ text := jsTrim (titlePrefix title), index := 0,
         tokenCount := estimateTokenCount (jsTrim (titlePrefix title)) }] := by
  unfold chunkText
  simp [h]

/-- Witness for `chunkText_no_sentences` on whitespace-only text. -/
theorem chunkText_no_sentences_witness :
    splitIntoSentences [' ', '\n', ' '] = [] ∧
    chunkText [' ', '\n', ' '] ['T'] 500 50 =
      [{ text := jsTrim (titlePrefix ['T']), index := 0,
         tokenCount := estimateTokenCount (jsTrim (titlePrefix ['T'])) }] :=
  ⟨by decide, chunkText_no_sentences [' ', '\n', ' '] ['T'] 500 50 (by decide)⟩

/-- Fold preservation: a property preserved by each step survives the fold. -/
theorem foldl_preserve {α β : Type} {P : α → Prop} (f : α → β → α)
    (hstep : ∀ a b, P a → P (f a b)) :
    ∀ (l : List β) (a : α), P a → P (l.foldl f a) := by
  intro l
  induction l with
  | nil => intro a h; simpa using h
  | cons x rest ih => intro a h; rw [List.foldl_cons]; exact ih _ (hstep _ _ h)

/-- Fold establishment: a property established by every step holds after a
fold over a nonempty list. -/
theorem foldl_establish {α β : Type} {P : α → Prop} (f : α → β → α)
    (hstep : ∀ a b, P (f a b)) :
    ∀ (l : List β) (a : α), l ≠ [] → P (l.foldl f a) := by
  intro l
  induction l with
  | nil => intro a h; exact absurd rfl h
  | cons x rest ih =>
    intro a _
    rw [List.foldl_cons]
    cases rest with
    | nil => simpa using hstep a x
    | cons y l2 => exact ih _ (by simp)

/-- Fold preservation with membership: as `foldl_preserve`, where the step
may use that each element comes from the folded list. -/
theorem foldl_preserve_mem {α β : Type} {P : α → Prop} (f : α → β → α)
    (all : List β) (hstep : ∀ a b, b ∈ all → P a → P (f a b)) :
    ∀ (l : List β), (∀ b ∈ l, b ∈ all) → ∀ a, P a → P (l.foldl f a) := by
  intro l
  induction l with
  | nil => intro _ a h; simpa using h
  | cons x rest ih =>
    intro hsub a h
    rw [List.foldl_cons]
    exact ih (fun b hb => hsub b (by simp [hb])) _ (hstep _ _ (hsub x (by simp)) h)

theorem pushChunk_indices (cs : List TextChunk) (t : JStr) (k : Nat)
    (h : ChunkIndicesOk cs) : ChunkIndicesOk (pushChunk cs t k) := by
  unfold ChunkIndicesOk at h ⊢
  unfold pushChunk
  simp [h, List.range_succ]

theorem mem_pushChunk {cs : List TextChunk} {t : JStr} {k : Nat} {c : TextChunk}
    (h : c ∈ pushChunk cs t k) :
    c ∈ cs ∨ c = { text := t, index := cs.length, tokenCount := k } := by
  unfold pushChunk at h
  simpa using h

theorem flushTail_indices (tp : JStr) (tt : Nat) (st : List TextChunk × List JStr × Nat)
    (h : ChunkIndicesOk st.1) : ChunkIndicesOk (flushTail tp tt st) := by
  unfold flushTail
  split
  · exact pushChunk_indices _ _ _ h
  · exact h

theorem flushTail_ne_nil (tp : JStr) (tt : Nat) (st : List TextChunk × List JStr × Nat)
    (h : st.1 ≠ [] ∨ st.2.1 ≠ []) : flushTail tp tt st ≠ [] := by
  unfold flushTail
  split
  · simp [pushChunk]
  · next hc =>
    rcases h with h | h
    · exact h
    · exact absurd h hc

theorem mem_flushTail {tp : JStr} {tt : Nat} {st : List TextChunk × List JStr × Nat}
    {c : TextChunk} (h : c ∈ flushTail tp tt st) :
    c ∈ st.1 ∨
      (st.2.1 ≠ [] ∧
        c = { text := tp ++ joinSp st.2.1, index := st.1.length,
              tokenCount := tt + st.2.2 }) := by
  unfold flushTail at h
  split at h
  · next hc =>
    rcases mem_pushChunk h with h1 | h1
    · exact Or.inl h1
    · exact Or.inr ⟨hc, h1⟩
  · exact Or.inl h

theorem wordStep_indices (tp : JStr) (tt : Nat) (eff : Int)
    (st : List TextChunk × List JStr × Nat) (w : JStr)
    (h : ChunkIndicesOk st.1) : ChunkIndicesOk (wordStep tp tt eff st w).1 := by
  unfold wordStep
  by_cases hc : (st.2.2 : Int) + estimateTokenCount (w ++ [' ']) > eff ∧ st.2.1 ≠ []
  · rw [if_pos hc]
    exact pushChunk_indices _ _ _ h
  · rw [if_neg hc]
    exact h

theorem wordStep_wc_ne_nil (tp : JStr) (tt : Nat) (eff : Int)
    (st : List TextChunk × List JStr × Nat) (w : JStr) :
    (wordStep tp tt eff st w).2.1 ≠ [] := by
  unfold wordStep
  by_cases hc : (st.2.2 : Int) + estimateTokenCount (w ++ [' ']) > eff ∧ st.2.1 ≠ []
  · rw [if_pos hc]; simp
  · rw [if_neg hc]; simp

theorem jsSplitWsGo_ne_nil : ∀ (cs part : JStr) (inRun : Bool),
    jsSplitWsGo cs part inRun ≠ [] := by
  intro cs
  induction cs with
  | nil => intro part inRun; simp [jsSplitWsGo]
  | cons c rest ih =>
    intro part inRun
    unfold jsSplitWsGo
    split
    · split
      · exact ih [] true
      · simp
    · exact ih _ false

theorem jsSplitWs_ne_nil (s : JStr) : jsSplitWs s ≠ [] := jsSplitWsGo_ne_nil s [] false

theorem fallbackSplit_indices (tp : JStr) (tt : Nat) (eff : Int) (s : JStr)
    (cs : List TextChunk) (h : ChunkIndicesOk cs) :
    ChunkIndicesOk (fallbackSplit tp tt eff s cs) := by
  unfold fallbackSplit
  apply flushTail_indices
  exact foldl_preserve (P := fun st => ChunkIndicesOk st.1) (wordStep tp tt eff)
    (fun a b ha => wordStep_indices tp tt eff a b ha) (jsSplitWs s) (cs, [], 0) h

theorem fallbackSplit_ne_nil (tp : JStr) (tt : Nat) (eff : Int) (s : JStr)
    (cs : List TextChunk) : fallbackSplit tp tt eff s cs ≠ [] := by
  unfold fallbackSplit
  apply flushTail_ne_nil
  right
  exact foldl_establish (P := fun st => st.2.1 ≠ []) (wordStep tp tt eff)
    (fun a b => wordStep_wc_ne_nil tp tt eff a b) (jsSplitWs s) (cs, [], 0)
    (jsSplitWs_ne_nil s)

theorem chunkStep_indices (tp : JStr) (tt : Nat) (eff ov : Int)
    (st : List TextChunk × List JStr × Nat) (s : JStr)
    (h : ChunkIndicesOk st.1) : ChunkIndicesOk (chunkStep tp tt eff ov st s).1 := by
  unfold chunkStep
  by_cases h1 : (estimateTokenCount s : Int) > eff ∧ st.2.1 = []
  · rw [if_pos h1]
    exact fallbackSplit_indices _ _ _ _ _ h
  · rw [if_neg h1]
    by_cases h2 : (st.2.2 : Int) + estimateTokenCount s > eff ∧ st.2.1 ≠ []
    · rw [if_pos h2]
      exact pushChunk_indices _ _ _ h
    · rw [if_neg h2]
      exact h

theorem chunkStep_establish (tp : JStr) (tt : Nat) (eff ov : Int)
    (st : List TextChunk × List JStr × Nat) (s : JStr) :
    (chunkStep tp tt eff ov st s).1 ≠ [] ∨ (chunkStep tp tt eff ov st s).2.1 ≠ [] := by
  unfold chunkStep
  by_cases h1 : (estimateTokenCount s : Int) > eff ∧ st.2.1 = []
  · rw [if_pos h1]
    exact Or.inl (fallbackSplit_ne_nil tp tt eff s st.1)
  · rw [if_neg h1]
    by_cases h2 : (st.2.2 : Int) + estimateTokenCount s > eff ∧ st.2.1 ≠ []
    · rw [if_pos h2]; right; simp
    · rw [if_neg h2]; right; simp

/-- **C9** — chunker totality and non-emptiness: for every input text and
title (including empty, whitespace-only, or delimiter-only text), `chunkText`
returns a non-empty list of chunks, so every synced article contributes at
least one searchable chunk. -/
theorem chunkText_ne_nil (text title : JStr) (targetSize ov : Int) :
    chunkText text title targetSize ov ≠ [] := by
  by_cases hs : (splitIntoSentences text).isEmpty
  · simp [chunkText, hs]
  · have hsn : splitIntoSentences text ≠ [] := by
      simpa [List.isEmpty_iff] using hs
    simp only [chunkText, if_neg hs]
    apply flushTail_ne_nil
    exact foldl_establish
      (P := fun st => st.1 ≠ [] ∨ st.2.1 ≠ [])
      (chunkStep (titlePrefix title) (estimateTokenCount (titlePrefix title))
        (targetSize - estimateTokenCount (titlePrefix title)) ov)
      (fun a b => chunkStep_establish _ _ _ _ a b) (splitIntoSentences text)
      ([], [], 0) hsn

theorem insertChunksBatch_ids : ∀ (cs : List ChunkWithEmbedding) (db : DBState),
    (insertChunksBatch db cs).chunks.map ChunkRow.id
      = db.chunks.map ChunkRow.id ++ List.range' db.nextChunkId cs.length ∧
    (insertChunksBatch db cs).vec.map Prod.fst
      = db.vec.map Prod.fst ++ List.range' db.nextChunkId cs.length := by
  intro cs
  induction cs with
  | nil => intro db; simp [insertChunksBatch]
  | cons c rest ih =>
    intro db
    have hstep : insertChunksBatch db (c :: rest)
        = insertChunksBatch (insertChunk db c) rest := rfl
    rcases ih (insertChunk db c) with ⟨h1, h2⟩
    rw [hstep]
    constructor
    · rw [h1]
      simp [insertChunk, List.range'_succ]
    · rw [h2]
      simp [insertChunk, List.range'_succ]

/-- **C4** — chunk/embedding pairing and index contiguity: `insertChunksBatch`
creates chunk rows and `chunks_vec` rows in 1:1 correspondence — the batch
appends exactly one chunk row and one vector row per input chunk, under the
same consecutive rowids — and the chunk indices emitted by `chunkText` form
the contiguous sequence `0..count-1` in emission order. -/
theorem chunk_embedding_pairing (db : DBState) (cs : List ChunkWithEmbedding)
    (text title : JStr) (targetSize ov : Int) :
    (insertChunksBatch db cs).chunks.map ChunkRow.id
      = db.chunks.map ChunkRow.id ++ List.range' db.nextChunkId cs.length ∧
    (insertChunksBatch db cs).vec.map Prod.fst
      = db.vec.map Prod.fst ++ List.range' db.nextChunkId cs.length ∧
    (chunkText text title targetSize ov).map TextChunk.index
      = List.range (chunkText text title targetSize ov).length := by
  refine ⟨(insertChunksBatch_ids cs db).1, (insertChunksBatch_ids cs db).2, ?_⟩
  show ChunkIndicesOk (chunkText text title targetSize ov)
  by_cases hs : (splitIntoSentences text).isEmpty
  · simp only [chunkText, if_pos hs, ChunkIndicesOk]
    simp [List.range_succ]
  · simp only [chunkText, if_neg hs]
    apply flushTail_indices
    exact foldl_preserve
      (P := fun st => ChunkIndicesOk st.1)
      (chunkStep (titlePrefix title) (estimateTokenCount (titlePrefix title))
        (targetSize - estimateTokenCount (titlePrefix title)) ov)
      (fun a b ha => chunkStep_indices _ _ _ _ a b ha) (splitIntoSentences text)
      ([], [], 0) (by simp [ChunkIndicesOk])

theorem joinSp_singleton (w : JStr) : joinSp [w] = w := by
  simp [joinSp, List.intercalate]

/-- A chunk flushed from a word-loop state satisfying `WcInv` with a nonempty
word chunk satisfies the amended sub-chunk bound. -/
theorem flushChunk_ok (tp : JStr) (tt : Nat) (eff : Int) (words : List JStr)
    (wc : List JStr) (wt : Nat) (n : Nat) (hne : wc ≠ [])
    (hQ : WcInv eff words wc wt) :
    SubChunkOk tp tt eff words
      { text := tp ++ joinSp wc, index := n, tokenCount := tt + wt } := by
  rcases hQ with ⟨h1, _⟩ | ⟨_, hle | ⟨w2, hw2, hwc, hwt, hgt⟩⟩
  · exact absurd h1 hne
  · left
    dsimp only
    push_cast
    omega
  · right
    refine ⟨w2, hw2, ?_, ?_, ?_⟩
    · dsimp only
      rw [hwc, joinSp_singleton]
    · rw [← hwt]
      exact_mod_cast hgt
    · dsimp only
      rw [hwt]

/-- One fallback word step preserves the sub-chunk bound on emitted chunks
and the word-chunk invariant. -/
theorem wordStep_inv (tp : JStr) (tt : Nat) (eff : Int) (chunks0 : List TextChunk)
    (words : List JStr) (w : JStr) (hw : w ∈ words)
    (st : List TextChunk × List JStr × Nat)
    (h : (∀ c ∈ st.1, c ∈ chunks0 ∨ SubChunkOk tp tt eff words c) ∧
      WcInv eff words st.2.1 st.2.2) :
    (∀ c ∈ (wordStep tp tt eff st w).1, c ∈ chunks0 ∨ SubChunkOk tp tt eff words c) ∧
    WcInv eff words (wordStep tp tt eff st w).2.1 (wordStep tp tt eff st w).2.2 := by
  obtain ⟨hP, hQ⟩ := h
  unfold wordStep
  by_cases hc : (st.2.2 : Int) + estimateTokenCount (w ++ [' ']) > eff ∧ st.2.1 ≠ []
  · rw [if_pos hc]
    dsimp only
    constructor
    · intro c hcmem
      rcases mem_pushChunk hcmem with h1 | h1
      · exact hP c h1
      · right
        rw [h1]
        exact flushChunk_ok tp tt eff words _ _ _ hc.2 hQ
    · right
      refine ⟨by simp, ?_⟩
      by_cases hwle : (estimateTokenCount (w ++ [' ']) : Int) ≤ eff
      · exact Or.inl hwle
      · exact Or.inr ⟨w, hw, rfl, rfl, by omega⟩
  · rw [if_neg hc]
    dsimp only
    refine ⟨hP, ?_⟩
    rcases hQ with ⟨hnil, h0⟩ | ⟨hne, _⟩
    · rw [hnil, h0]
      refine Or.inr ⟨by simp, ?_⟩
      by_cases hwle : (estimateTokenCount (w ++ [' ']) : Int) ≤ eff
      · left
        simpa using hwle
      · right
        exact ⟨w, hw, rfl, by simp, by simp; omega⟩
    · have hle : (st.2.2 : Int) + estimateTokenCount (w ++ [' ']) ≤ eff := by
        by_contra hlt
        exact hc ⟨by omega, hne⟩
      refine Or.inr ⟨by simp, Or.inl ?_⟩
      push_cast
      omega

set_option maxRecDepth 8000 in
/-- **C5 (counterexample)** — a sentence that is a single 40-character word,
with `targetSize = 10`, title `"T"` (title tokens 2, effective budget 8):
the fallback emits one sub-chunk whose token estimate excluding the title
prefix is 11 > 8, so not every fallback sub-chunk is within the effective
budget. -/
theorem chunkText_oversized_counterexample :
    chunkText (List.replicate 40 'a') ['T'] 10 2 =
      [{ text := titlePrefix ['T'] ++ List.replicate 40 'a', index := 0,
         tokenCount := 13 }] ∧
    ¬ (∀ c ∈ chunkText (List.replicate 40 'a') ['T'] 10 2,
        (c.tokenCount : Int) - (estimateTokenCount (titlePrefix ['T']) : Int)
          ≤ 10 - (estimateTokenCount (titlePrefix ['T']) : Int)) := by
  constructor
  · decide
  · decide

/-- **C5 (amended)** — oversized-sentence fallback: a sentence whose token
estimate exceeds the effective budget and which would start an empty chunk is
dispatched to the word-boundary splitter `fallbackSplit`; every sub-chunk it
emits is within the effective budget (excluding the title prefix) **or** is a
single word of the sentence whose own padded token estimate already exceeds
the budget (such a word is kept whole rather than split). -/
theorem chunkText_oversized_fallback (tp : JStr) (tt : Nat) (eff ov : Int) :
    (∀ (st : List TextChunk × List JStr × Nat) (s : JStr),
      (estimateTokenCount s : Int) > eff → st.2.1 = [] →
      chunkStep tp tt eff ov st s = (fallbackSplit tp tt eff s st.1, st.2.1, st.2.2)) ∧
    (∀ (s : JStr) (chunks0 : List TextChunk) (c : TextChunk),
      c ∈ fallbackSplit tp tt eff s chunks0 →
      c ∈ chunks0 ∨ SubChunkOk tp tt eff (jsSplitWs s) c) := by
  constructor
  · intro st s h1 h2
    unfold chunkStep
    rw [if_pos ⟨h1, h2⟩]
  · intro s chunks0 c hc
    unfold fallbackSplit at hc
    have hinv := foldl_preserve_mem
      (P := fun st => (∀ c2 ∈ st.1, c2 ∈ chunks0 ∨
          SubChunkOk tp tt eff (jsSplitWs s) c2) ∧
        WcInv eff (jsSplitWs s) st.2.1 st.2.2)
      (wordStep tp tt eff) (jsSplitWs s)
      (fun a b hb ha => wordStep_inv tp tt eff chunks0 (jsSplitWs s) b hb a ha)
      (jsSplitWs s) (fun b hb => hb) (chunks0, [], 0)
      ⟨fun c2 h2 => Or.inl h2, Or.inl ⟨rfl, rfl⟩⟩
    obtain ⟨hP, hQ⟩ := hinv
    rcases mem_flushTail hc with h1 | ⟨hne, heq⟩
    · exact hP c h1
    · right
      rw [heq]
      exact flushChunk_ok tp tt eff (jsSplitWs s) _ _ _ hne hQ

set_option maxRecDepth 8000 in
/-- Witness for `chunkText_oversized_fallback` on the 40-character word. -/
theorem chunkText_oversized_fallback_witness :
    ((⟨titlePrefix ['T'] ++ List.replicate 40 'a', 0, 13⟩ : TextChunk) ∈
      fallbackSplit (titlePrefix ['T']) 2 8 (List.replicate 40 'a') []) ∧
    ((⟨titlePrefix ['T'] ++ List.replicate 40 'a', 0, 13⟩ : TextChunk) ∈
        ([] : List TextChunk) ∨
      SubChunkOk (titlePrefix ['T']) 2 8 (jsSplitWs (List.replicate 40 'a'))
        ⟨titlePrefix ['T'] ++ List.replicate 40 'a', 0, 13⟩) ∧
    ((estimateTokenCount (List.replicate 40 'a') : Int) > 8 ∧
      chunkStep (titlePrefix ['T']) 2 8 50 ([], [], 0) (List.replicate 40 'a')
        = (fallbackSplit (titlePrefix ['T']) 2 8 (List.replicate 40 'a') [], [], 0)) :=
  ⟨by decide,
    (chunkText_oversized_fallback (titlePrefix ['T']) 2 8 50).2
      (List.replicate 40 'a') [] _ (by decide),
    by decide,
    (chunkText_oversized_fallback (titlePrefix ['T']) 2 8 50).1
      ([], [], 0) (List.replicate 40 'a') (by decide) rfl⟩

theorem jsMapGet_eq_none {κ α : Type} [DecidableEq κ] :
    ∀ (m : List (κ × α)) (k : κ), jsMapGet m k = none ↔ k ∉ m.map Prod.fst := by
  intro m
  induction m with
  | nil => intro k; simp [jsMapGet]
  | cons p rest ih =>
    obtain ⟨k1, v1⟩ := p
    intro k
    simp only [jsMapGet, List.map_cons, List.mem_cons]
    by_cases hk : k1 = k
    · subst hk
      simp
    · rw [if_neg hk, ih k]
      constructor
      · intro h hor
        rcases hor with h1 | h1
        · exact hk h1.symm
        · exact h h1
      · intro h h1
        exact h (Or.inr h1)

theorem jsMapGet_some_mem {κ α : Type} [DecidableEq κ] :
    ∀ (m : List (κ × α)) (k : κ) (v : α), jsMapGet m k = some v → (k, v) ∈ m := by
  intro m
  induction m with
  | nil => intro k v h; simp [jsMapGet] at h
  | cons p rest ih =>
    obtain ⟨k1, v1⟩ := p
    intro k v h
    simp only [jsMapGet] at h
    by_cases hk : k1 = k
    · rw [if_pos hk] at h
      injection h with hv
      subst hk
      subst hv
      exact List.mem_cons_self _ _
    · rw [if_neg hk] at h
      exact List.mem_cons_of_mem _ (ih k v h)

theorem jsMapGet_of_mem_nodup {κ α : Type} [DecidableEq κ] :
    ∀ (m : List (κ × α)), (m.map Prod.fst).Nodup →
      ∀ (k : κ) (v : α), (k, v) ∈ m → jsMapGet m k = some v := by
  intro m
  induction m with
  | nil => intro _ k v h; simp at h
  | cons p rest ih =>
    obtain ⟨k1, v1⟩ := p
    intro hnd k v h
    simp only [List.map_cons, List.nodup_cons] at hnd
    obtain ⟨hk1, hnd2⟩ := hnd
    rcases List.mem_cons.mp h with h1 | h1
    · injection h1 with e1 e2
      subst e1
      subst e2
      simp [jsMapGet]
    · have hkne : k1 ≠ k := by
        intro he
        exact hk1 (he ▸ List.mem_map.mpr ⟨(k, v), h1, rfl⟩)
      simp only [jsMapGet, if_neg hkne]
      exact ih hnd2 k v h1

theorem jsMapSet_append {κ α : Type} [DecidableEq κ] :
    ∀ (m : List (κ × α)) (k : κ) (v : α),
      k ∉ m.map Prod.fst → jsMapSet m k v = m ++ [(k, v)] := by
  intro m
  induction m with
  | nil => intro k v _; rfl
  | cons p rest ih =>
    obtain ⟨k1, v1⟩ := p
    intro k v h
    simp only [List.map_cons, List.mem_cons] at h
    push_neg at h
    simp only [jsMapSet, if_neg (fun he => h.1 (Eq.symm he))]
    rw [ih k v h.2]
    simp

theorem jsMapSet_keys_of_mem {κ α : Type} [DecidableEq κ] :
    ∀ (m : List (κ × α)) (k : κ) (v : α),
      k ∈ m.map Prod.fst → (jsMapSet m k v).map Prod.fst = m.map Prod.fst := by
  intro m
  induction m with
  | nil => intro k v h; simp at h
  | cons p rest ih =>
    obtain ⟨k1, v1⟩ := p
    intro k v h
    by_cases hk : k1 = k
    · simp [jsMapSet, if_pos hk, hk]
    · simp only [List.map_cons, List.mem_cons] at h
      rcases h with h1 | h1
      · exact absurd h1.symm hk
      · simp [jsMapSet, if_neg hk, ih k v h1]

theorem mem_jsMapSet_self {κ α : Type} [DecidableEq κ] :
    ∀ (m : List (κ × α)) (k : κ) (v : α), (k, v) ∈ jsMapSet m k v := by
  intro m
  induction m with
  | nil => intro k v; simp [jsMapSet]
  | cons p rest ih =>
    obtain ⟨k1, v1⟩ := p
    intro k v
    by_cases hk : k1 = k
    · simp [jsMapSet, if_pos hk]
    · simp only [jsMapSet, if_neg hk]
      exact List.mem_cons_of_mem _ (ih k v)

theorem mem_jsMapSet_of_ne {κ α : Type} [DecidableEq κ] :
    ∀ (m : List (κ × α)) (k : κ) (v : α) (p : κ × α),
      p ∈ m → p.1 ≠ k → p ∈ jsMapSet m k v := by
  intro m
  induction m with
  | nil => intro k v p h _; simp at h
  | cons q rest ih =>
    obtain ⟨k1, v1⟩ := q
    intro k v p h hne
    rcases List.mem_cons.mp h with h1 | h1
    · have hk : k1 ≠ k := by
        subst h1
        exact hne
      simp only [jsMapSet, if_neg hk]
      rw [h1]
      exact List.mem_cons_self _ _
    · by_cases hk : k1 = k
      · simp only [jsMapSet, if_pos hk]
        exact List.mem_cons_of_mem _ h1
      · simp only [jsMapSet, if_neg hk]
        exact List.mem_cons_of_mem _ (ih k v p h1 hne)

theorem mem_jsMapSet {κ α : Type} [DecidableEq κ] :
    ∀ (m : List (κ × α)), (m.map Prod.fst).Nodup →
      ∀ (k : κ) (v : α) (p : κ × α),
        p ∈ jsMapSet m k v → p = (k, v) ∨ (p ∈ m ∧ p.1 ≠ k) := by
  intro m
  induction m with
  | nil =>
    intro _ k v p h
    simp only [jsMapSet, List.mem_singleton] at h
    exact Or.inl h
  | cons q rest ih =>
    obtain ⟨k1, v1⟩ := q
    intro hnd k v p hp
    simp only [List.map_cons, List.nodup_cons] at hnd
    obtain ⟨hk1, hnd2⟩ := hnd
    by_cases hk : k1 = k
    · simp only [jsMapSet, if_pos hk] at hp
      rcases List.mem_cons.mp hp with h1 | h1
      · exact Or.inl h1
      · refine Or.inr ⟨List.mem_cons_of_mem _ h1, ?_⟩
        intro he
        subst hk
        exact hk1 (he ▸ List.mem_map.mpr ⟨p, h1, rfl⟩)
    · simp only [jsMapSet, if_neg hk] at hp
      rcases List.mem_cons.mp hp with h1 | h1
      · refine Or.inr ⟨?_, ?_⟩
        · rw [h1]; exact List.mem_cons_self _ _
        · rw [h1]; exact hk
      · rcases ih hnd2 k v p h1 with h2 | ⟨h2, h3⟩
        · exact Or.inl h2
        · exact Or.inr ⟨List.mem_cons_of_mem _ h2, h3⟩

theorem insertDesc_perm (x : FormattedSearchResult) :
    ∀ l, List.Perm (insertDesc x l) (x :: l) := by
  intro l
  induction l with
  | nil => exact List.Perm.refl _
  | cons y ys ih =>
    unfold insertDesc
    split
    · exact List.Perm.refl _
    · exact (List.Perm.cons y ih).trans (List.Perm.swap x y ys)

theorem sortByRelevanceDesc_perm : ∀ l, List.Perm (sortByRelevanceDesc l) l := by
  intro l
  induction l with
  | nil => exact List.Perm.refl _
  | cons x xs ih =>
    exact (insertDesc_perm x (sortByRelevanceDesc xs)).trans (List.Perm.cons x ih)

theorem insertDesc_sorted (x : FormattedSearchResult) :
    ∀ l, l.Sorted (fun a b => b.relevance ≤ a.relevance) →
      (insertDesc x l).Sorted (fun a b => b.relevance ≤ a.relevance) := by
  intro l
  induction l with
  | nil => intro _; simp [insertDesc]
  | cons y ys ih =>
    intro h
    rw [List.sorted_cons] at h
    obtain ⟨hy, hys⟩ := h
    unfold insertDesc
    split
    · next hlt =>
      rw [List.sorted_cons]
      refine ⟨?_, ?_⟩
      · intro b hb
        rcases List.mem_cons.mp hb with rfl | hb2
        · exact le_of_lt hlt
        · exact le_trans (hy b hb2) (le_of_lt hlt)
      · rw [List.sorted_cons]
        exact ⟨hy, hys⟩
    · next hnlt =>
      rw [List.sorted_cons]
      constructor
      · intro b hb
        rcases List.mem_cons.mp ((insertDesc_perm x ys).mem_iff.mp hb) with rfl | hb2
        · exact not_lt.mp hnlt
        · exact hy b hb2
      · exact ih hys

theorem sortByRelevanceDesc_sorted :
    ∀ l, (sortByRelevanceDesc l).Sorted (fun a b => b.relevance ≤ a.relevance) := by
  intro l
  induction l with
  | nil => simp [sortByRelevanceDesc]
  | cons x xs ih => exact insertDesc_sorted x _ ih

/-- One `deduplicateResults` loop iteration preserves the map invariant. -/
theorem dedupStep_inv (processed : List FormattedSearchResult)
    (m : List (String × FormattedSearchResult)) (r : FormattedSearchResult)
    (h : DedupInv processed m) : DedupInv (processed ++ [r]) (dedupStep m r) := by
  obtain ⟨hnd, hent, hcov⟩ := h
  cases hget : jsMapGet m r.url with
  | none =>
    have hd : dedupStep m r = jsMapSet m r.url r := by
      simp [dedupStep, hget]
    rw [hd]
    have hk : r.url ∉ m.map Prod.fst := (jsMapGet_eq_none m r.url).mp hget
    rw [jsMapSet_append m r.url r hk]
    refine ⟨?_, ?_, ?_⟩
    · simp only [List.map_append]
      simp [List.nodup_append, hnd, hk]
    · intro p hp
      rcases List.mem_append.mp hp with hp1 | hp1
      · obtain ⟨h1, h2, h3⟩ := hent p hp1
        refine ⟨h1, List.mem_append_left _ h2, ?_⟩
        intro s hs hsu
        rcases List.mem_append.mp hs with hs1 | hs1
        · exact h3 s hs1 hsu
        · simp only [List.mem_singleton] at hs1
          rw [hs1] at hsu
          exfalso
          apply hk
          rw [hsu]
          exact List.mem_map.mpr ⟨p, hp1, rfl⟩
      · simp only [List.mem_singleton] at hp1
        subst hp1
        refine ⟨rfl, List.mem_append_right _ (by simp), ?_⟩
        intro s hs hsu
        rcases List.mem_append.mp hs with hs1 | hs1
        · exfalso
          obtain ⟨q, hq, hqk⟩ := hcov s hs1
          exact hk (List.mem_map.mpr ⟨q, hq, by rw [hqk, hsu]⟩)
        · simp only [List.mem_singleton] at hs1
          rw [hs1]
    · intro s hs
      rcases List.mem_append.mp hs with hs1 | hs1
      · obtain ⟨q, hq, hqk⟩ := hcov s hs1
        exact ⟨q, List.mem_append_left _ hq, hqk⟩
      · simp only [List.mem_singleton] at hs1
        rw [hs1]
        exact ⟨(r.url, r), List.mem_append_right _ (by simp), rfl⟩
  | some e =>
    have hem : (r.url, e) ∈ m := jsMapGet_some_mem m r.url e hget
    by_cases hlt : e.relevance < r.relevance
    · have hd : dedupStep m r = jsMapSet m r.url r := by
        simp [dedupStep, hget, hlt]
      rw [hd]
      refine ⟨?_, ?_, ?_⟩
      · rw [jsMapSet_keys_of_mem m r.url r (List.mem_map.mpr ⟨(r.url, e), hem, rfl⟩)]
        exact hnd
      · intro p hp
        rcases mem_jsMapSet m hnd r.url r p hp with hp1 | ⟨hp1, hpne⟩
        · subst hp1
          refine ⟨rfl, List.mem_append_right _ (by simp), ?_⟩
          intro s hs hsu
          rcases List.mem_append.mp hs with hs1 | hs1
          · obtain ⟨_, _, h3⟩ := hent (r.url, e) hem
            exact le_of_lt (lt_of_le_of_lt (h3 s hs1 hsu) hlt)
          · simp only [List.mem_singleton] at hs1
            rw [hs1]
        · obtain ⟨h1, h2, h3⟩ := hent p hp1
          refine ⟨h1, List.mem_append_left _ h2, ?_⟩
          intro s hs hsu
          rcases List.mem_append.mp hs with hs1 | hs1
          · exact h3 s hs1 hsu
          · simp only [List.mem_singleton] at hs1
            rw [hs1] at hsu
            exact absurd hsu.symm hpne
      · intro s hs
        rcases List.mem_append.mp hs with hs1 | hs1
        · obtain ⟨q, hq, hqk⟩ := hcov s hs1
          by_cases hqr : q.1 = r.url
          · refine ⟨(r.url, r), mem_jsMapSet_self m r.url r, ?_⟩
            rw [← hqr]
            exact hqk
          · exact ⟨q, mem_jsMapSet_of_ne m r.url r q hq hqr, hqk⟩
        · simp only [List.mem_singleton] at hs1
          rw [hs1]
          exact ⟨(r.url, r), mem_jsMapSet_self m r.url r, rfl⟩
    · have hd : dedupStep m r = m := by
        simp [dedupStep, hget, hlt]
      rw [hd]
      refine ⟨hnd, ?_, ?_⟩
      · intro p hp
        obtain ⟨h1, h2, h3⟩ := hent p hp
        refine ⟨h1, List.mem_append_left _ h2, ?_⟩
        intro s hs hsu
        rcases List.mem_append.mp hs with hs1 | hs1
        · exact h3 s hs1 hsu
        · simp only [List.mem_singleton] at hs1
          rw [hs1] at hsu ⊢
          have hpget : jsMapGet m p.1 = some p.2 :=
            jsMapGet_of_mem_nodup m hnd p.1 p.2 (by simpa using hp)
          rw [← hsu] at hpget
          rw [hget] at hpget
          injection hpget with hpe
          rw [← hpe]
          exact not_lt.mp hlt
      · intro s hs
        rcases List.mem_append.mp hs with hs1 | hs1
        · exact hcov s hs1
        · simp only [List.mem_singleton] at hs1
          rw [hs1]
          exact ⟨(r.url, e), hem, rfl⟩

theorem dedup_fold_inv : ∀ (l processed : List FormattedSearchResult)
    (m : List (String × FormattedSearchResult)),
    DedupInv processed m → DedupInv (processed ++ l) (l.foldl dedupStep m) := by
  intro l
  induction l with
  | nil => intro processed m h; simpa using h
  | cons x rest ih =>
    intro processed m h
    rw [List.foldl_cons]
    have h2 := ih (processed ++ [x]) (dedupStep m x) (dedupStep_inv processed m x h)
    simpa [List.append_assoc] using h2

/-- **C8** — dedup post-processing: `deduplicateResults` returns at most one
result per URL (pairwise-distinct URLs); each retained result is an input
result of maximal relevance among inputs sharing its URL; the output is
sorted by descending relevance.  `search` itself only maps
`formatSearchResult` over the raw rows — it performs no deduplication (the
output has one entry per raw row, with URLs preserved positionally). -/
theorem deduplicateResults_spec (results : List FormattedSearchResult) :
    List.Pairwise (fun a b => a.url ≠ b.url) (deduplicateResults results) ∧
    (∀ c ∈ deduplicateResults results, c ∈ results ∧
      ∀ s ∈ results, s.url = c.url → s.relevance ≤ c.relevance) ∧
    (deduplicateResults results).Sorted (fun a b => b.relevance ≤ a.relevance) ∧
    (∀ raw : List SearchResult,
      (searchFormatResults raw).length = raw.length ∧
      (searchFormatResults raw).map FormattedSearchResult.url
        = raw.map SearchResult.url) := by
  have hinv : DedupInv results (results.foldl dedupStep []) := by
    have h0 : DedupInv [] [] := ⟨by simp, by simp, by simp⟩
    simpa using dedup_fold_inv results [] [] h0
  obtain ⟨hnd, hent, hcov⟩ := hinv
  have hperm := sortByRelevanceDesc_perm ((results.foldl dedupStep []).map Prod.snd)
  unfold deduplicateResults
  refine ⟨?_, ?_, ?_, ?_⟩
  · have hnd2 : List.Pairwise (fun p q => p.1 ≠ q.1) (results.foldl dedupStep []) :=
      List.pairwise_map.mp hnd
    have hpair : List.Pairwise (fun a b => a.url ≠ b.url)
        ((results.foldl dedupStep []).map Prod.snd) := by
      rw [List.pairwise_map]
      refine hnd2.imp_of_mem ?_
      intro a b ha hb hne
      obtain ⟨ha1, _, _⟩ := hent a ha
      obtain ⟨hb1, _, _⟩ := hent b hb
      rw [ha1, hb1]
      exact hne
    exact (hperm.pairwise_iff (fun h => Ne.symm h)).mpr hpair
  · intro c hc
    obtain ⟨p, hp, hpc⟩ := List.mem_map.mp (hperm.mem_iff.mp hc)
    obtain ⟨h1, h2, h3⟩ := hent p hp
    subst hpc
    exact ⟨h2, fun s hs hsu => h3 s hs (hsu.trans h1)⟩
  · exact sortByRelevanceDesc_sorted _
  · intro raw
    refine ⟨by simp [searchFormatResults], ?_⟩
    simp [searchFormatResults, formatSearchResult]

/-- Witness for `deduplicateResults_spec`: three results, two sharing a URL;
the higher-relevance one is retained and dominates its URL class. -/
theorem deduplicateResults_spec_witness :
    ((⟨"t2", "u", [], "s", 2⟩ : FormattedSearchResult) ∈
      deduplicateResults [⟨"t1", "u", [], "s", 1⟩, ⟨"t2", "u", [], "s", 2⟩,
        ⟨"t3", "v", [], "s", 0⟩]) ∧
    ((⟨"t2", "u", [], "s", 2⟩ : FormattedSearchResult) ∈
      [(⟨"t1", "u", [], "s", 1⟩ : FormattedSearchResult), ⟨"t2", "u", [], "s", 2⟩,
        ⟨"t3", "v", [], "s", 0⟩] ∧
      ∀ s ∈ [(⟨"t1", "u", [], "s", 1⟩ : FormattedSearchResult), ⟨"t2", "u", [], "s", 2⟩,
        ⟨"t3", "v", [], "s", 0⟩],
        s.url = (⟨"t2", "u", [], "s", 2⟩ : FormattedSearchResult).url →
        s.relevance ≤ (⟨"t2", "u", [], "s", 2⟩ : FormattedSearchResult).relevance) :=
  ⟨by decide,
    (deduplicateResults_spec [⟨"t1", "u", [], "s", 1⟩, ⟨"t2", "u", [], "s", 2⟩,
      ⟨"t3", "v", [], "s", 0⟩]).2.1 _ (by decide)⟩

theorem mem_addSet (s : List Nat) (y x : Nat) : x ∈ addSet s y ↔ x ∈ s ∨ x = y := by
  unfold addSet
  split
  · next hy =>
    constructor
    · exact Or.inl
    · intro h
      rcases h with h | h
      · exact h
      · rw [h]
        exact hy
  · simp

theorem eraseKey_sublist {α : Type} : ∀ (m : List (Nat × α)) (k : Nat),
    List.Sublist (eraseKey m k) m := by
  intro m
  induction m with
  | nil => intro k; simp [eraseKey]
  | cons p rest ih =>
    obtain ⟨k1, v1⟩ := p
    intro k
    by_cases hk : k1 = k
    · simp only [eraseKey, if_pos hk]
      exact List.sublist_cons_self _ _
    · simp only [eraseKey, if_neg hk]
      exact List.Sublist.cons₂ _ (ih k)

theorem keys_eraseKey_nodup {α : Type} (m : List (Nat × α)) (k : Nat)
    (h : (m.map Prod.fst).Nodup) : ((eraseKey m k).map Prod.fst).Nodup :=
  List.Nodup.sublist (List.Sublist.map Prod.fst (eraseKey_sublist m k)) h

theorem jsMapGet_eraseKey_ne {α : Type} : ∀ (m : List (Nat × α)) (k x : Nat), k ≠ x →
    jsMapGet (eraseKey m k) x = jsMapGet m x := by
  intro m
  induction m with
  | nil => intro k x _; rfl
  | cons p rest ih =>
    obtain ⟨k1, v1⟩ := p
    intro k x hne
    by_cases hk : k1 = k
    · simp only [eraseKey, if_pos hk]
      have h2 : k1 ≠ x := by
        rw [hk]
        exact hne
      simp only [jsMapGet, if_neg h2]
    · simp only [eraseKey, if_neg hk, jsMapGet]
      by_cases h2 : k1 = x
      · rw [if_pos h2, if_pos h2]
      · rw [if_neg h2, if_neg h2]
        exact ih k x hne

theorem keys_eraseKey {α : Type} : ∀ (m : List (Nat × α)), (m.map Prod.fst).Nodup →
    ∀ (k x : Nat), (x ∈ (eraseKey m k).map Prod.fst ↔ x ∈ m.map Prod.fst ∧ x ≠ k) := by
  intro m
  induction m with
  | nil => intro _ k x; simp [eraseKey]
  | cons p rest ih =>
    obtain ⟨k1, v1⟩ := p
    intro hnd k x
    simp only [List.map_cons, List.nodup_cons] at hnd
    obtain ⟨hk1, hnd2⟩ := hnd
    by_cases hk : k1 = k
    · simp only [eraseKey, if_pos hk]
      subst hk
      constructor
      · intro h
        refine ⟨List.mem_cons_of_mem _ h, ?_⟩
        intro he
        rw [he] at h
        exact hk1 h
      · rintro ⟨h1, h2⟩
        rcases List.mem_cons.mp h1 with h3 | h3
        · exact absurd h3 h2
        · exact h3
    · simp only [eraseKey, if_neg hk, List.map_cons, List.mem_cons]
      rw [ih hnd2 k x]
      constructor
      · intro h
        rcases h with h | ⟨h1, h2⟩
        · refine ⟨Or.inl h, ?_⟩
          rw [h]
          exact hk
        · exact ⟨Or.inr h1, h2⟩
      · rintro ⟨h1, h2⟩
        rcases h1 with h1 | h1
        · exact Or.inl h1
        · exact Or.inr ⟨h1, h2⟩

theorem assoc_entry_unique {κ α : Type} [DecidableEq κ] (l : List (κ × α))
    (hnd : (l.map Prod.fst).Nodup) (p q : κ × α) (hp : p ∈ l) (hq : q ∈ l)
    (hk : p.1 = q.1) : p = q := by
  have h1 := jsMapGet_of_mem_nodup l hnd p.1 p.2 (by simpa using hp)
  have h2 := jsMapGet_of_mem_nodup l hnd q.1 q.2 (by simpa using hq)
  rw [hk, h2] at h1
  injection h1 with h3
  obtain ⟨p1, p2⟩ := p
  obtain ⟨q1, q2⟩ := q
  dsimp at hk h3
  rw [hk, h3]

theorem mem_staleFoldFinish : ∀ (m : List (Nat × Int)) (stale : List Nat) (x : Nat),
    x ∈ staleFoldFinish (stale, m) ↔ x ∈ stale ∨ x ∈ m.map Prod.fst := by
  intro m
  induction m with
  | nil => intro stale x; simp [staleFoldFinish]
  | cons p rest ih =>
    intro stale x
    have hstep : staleFoldFinish (stale, p :: rest)
        = staleFoldFinish (addSet stale p.1, rest) := rfl
    rw [hstep, ih, mem_addSet]
    simp only [List.map_cons, List.mem_cons]
    tauto

/-- Membership characterization of the staleness diff: starting from an
accumulator `stale` and local map `m`, an id is flagged iff it was already
flagged, or it is a fetched id that is locally absent or strictly newer, or
it is a local id absent from the fetched listing. -/
theorem staleFold_mem : ∀ (fresh : List (Nat × Int)) (stale : List Nat)
    (m : List (Nat × Int)), (fresh.map Prod.fst).Nodup → (m.map Prod.fst).Nodup →
    ∀ x, (x ∈ staleFoldFinish (fresh.foldl staleStep (stale, m)) ↔
      x ∈ stale ∨
      (∃ p ∈ fresh, p.1 = x ∧
        (jsMapGet m x = none ∨ ∃ t, jsMapGet m x = some t ∧ t < p.2)) ∨
      (x ∈ m.map Prod.fst ∧ x ∉ fresh.map Prod.fst)) := by
  intro fresh
  induction fresh with
  | nil =>
    intro stale m _ _ x
    rw [List.foldl_nil, mem_staleFoldFinish]
    simp
  | cons f rest ih =>
    intro stale m hndf hndm x
    simp only [List.map_cons, List.nodup_cons] at hndf
    obtain ⟨hf1, hndf2⟩ := hndf
    rw [List.foldl_cons]
    have hpair : staleStep (stale, m) f
        = ((staleStep (stale, m) f).1, eraseKey m f.1) := rfl
    rw [hpair,
      ih ((staleStep (stale, m) f).1) (eraseKey m f.1) hndf2
        (keys_eraseKey_nodup m f.1 hndm) x]
    have hstale1 : ∀ y, y ∈ (staleStep (stale, m) f).1 ↔ y ∈ stale ∨
        (y = f.1 ∧ (jsMapGet m f.1 = none ∨
          ∃ t, jsMapGet m f.1 = some t ∧ t < f.2)) := by
      intro y
      unfold staleStep
      dsimp only
      cases hget : jsMapGet m f.1 with
      | none =>
        dsimp only
        rw [mem_addSet]
        simp
      | some t =>
        dsimp only
        by_cases hlt : t < f.2
        · rw [if_pos hlt, mem_addSet]
          constructor
          · rintro (h | h)
            · exact Or.inl h
            · exact Or.inr ⟨h, Or.inr ⟨t, rfl, hlt⟩⟩
          · rintro (h | ⟨h1, _⟩)
            · exact Or.inl h
            · exact Or.inr h1
        · rw [if_neg hlt]
          constructor
          · exact Or.inl
          · rintro (h | ⟨h1, hc⟩)
            · exact h
            · rcases hc with hc | ⟨t2, ht2, hlt2⟩
              · exact Option.noConfusion hc
              · injection ht2 with ht3
                exfalso
                omega
    rw [hstale1 x]
    have hcons : ∀ (P : Nat × Int → Prop),
        (∃ p, p ∈ f :: rest ∧ P p) ↔ (P f ∨ ∃ p, p ∈ rest ∧ P p) := by
      intro P
      constructor
      · rintro ⟨p, hp, hP⟩
        rcases List.mem_cons.mp hp with h | h
        · left
          rw [h] at hP
          exact hP
        · right
          exact ⟨p, h, hP⟩
      · rintro (h | ⟨p, hp, hP⟩)
        · exact ⟨f, List.mem_cons_self _ _, h⟩
        · exact ⟨p, List.mem_cons_of_mem _ hp, hP⟩
    by_cases hx : x = f.1
    · subst hx
      have hne1 : ∀ (P : Nat × Int → Prop), ¬ ∃ p, p ∈ rest ∧ p.1 = f.1 ∧ P p := by
        rintro P ⟨p, hp, he, _⟩
        exact hf1 (List.mem_map.mpr ⟨p, hp, he⟩)
      have hke : f.1 ∉ (eraseKey m f.1).map Prod.fst := by
        rw [keys_eraseKey m hndm f.1 f.1]
        rintro ⟨_, h⟩
        exact h rfl
      have hhead : f.1 ∈ List.map Prod.fst (f :: rest) := by
        simp
      rw [hcons]
      constructor
      · intro h
        rcases h with (h | ⟨_, hcf⟩) | h | ⟨h1, _⟩
        · exact Or.inl h
        · exact Or.inr (Or.inl (Or.inl ⟨rfl, hcf⟩))
        · exact absurd h (hne1 _)
        · exact absurd h1 hke
      · intro h
        rcases h with h | (⟨_, hcf⟩ | h) | ⟨_, h2⟩
        · exact Or.inl (Or.inl h)
        · exact Or.inl (Or.inr ⟨rfl, hcf⟩)
        · exact absurd h (hne1 _)
        · exact absurd hhead h2
    · have hne : f.1 ≠ x := fun h => hx h.symm
      rw [jsMapGet_eraseKey_ne m f.1 x hne, keys_eraseKey m hndm f.1 x, hcons]
      simp only [List.map_cons, List.mem_cons]
      constructor
      · intro h
        rcases h with (h | ⟨h1, _⟩) | h | ⟨⟨hK, _⟩, hR⟩
        · exact Or.inl h
        · exact absurd h1 hx
        · exact Or.inr (Or.inl (Or.inr h))
        · refine Or.inr (Or.inr ⟨hK, ?_⟩)
          rintro (h3 | h3)
          · exact hx h3
          · exact hR h3
      · intro h
        rcases h with h | (⟨h1, _⟩ | h) | ⟨hK, hR⟩
        · exact Or.inl (Or.inl h)
        · exact absurd h1 hne
        · exact Or.inr (Or.inl h)
        · exact Or.inr (Or.inr ⟨⟨hK, hx⟩, fun h3 => hR (Or.inr h3)⟩)

/-- **C2** — staleness diff: for every source and every freshly fetched
article summary, `getStaleArticleIds` marks the article stale iff it has no
locally stored row for that source, or its origin `updated_at` is strictly
newer than the locally stored value; and when the fetched set exactly matches
the local rows (ids and timestamps), the stale set is empty — an immediate
second sync with no origin changes reprocesses nothing.  (Fresh ids and local
ids are pairwise distinct, as origin ids are unique within a source and the
articles table has primary key `(id, source_id)`.) -/
theorem getStaleArticleIds_spec (db : DBState) (sourceId : String)
    (fresh : List (Nat × Int))
    (hndf : (fresh.map Prod.fst).Nodup)
    (hndm : ((articlesAssoc db sourceId).map Prod.fst).Nodup) :
    (∀ p ∈ fresh, (p.1 ∈ getStaleArticleIds db sourceId fresh ↔
      (jsMapGet (articlesAssoc db sourceId) p.1 = none ∨
        ∃ t, jsMapGet (articlesAssoc db sourceId) p.1 = some t ∧ t < p.2))) ∧
    ((∀ p ∈ fresh, jsMapGet (articlesAssoc db sourceId) p.1 = some p.2) →
      (∀ q ∈ articlesAssoc db sourceId, q.1 ∈ fresh.map Prod.fst) →
      getStaleArticleIds db sourceId fresh = []) := by
  constructor
  · intro p hp
    unfold getStaleArticleIds
    rw [staleFold_mem fresh [] (articlesAssoc db sourceId) hndf hndm p.1]
    constructor
    · intro h
      rcases h with h | h | ⟨_, h3⟩
      · simp at h
      · obtain ⟨q, hq, he, hc⟩ := h
        have hqp : q = p := assoc_entry_unique fresh hndf q p hq hp he
        rw [hqp] at hc
        exact hc
      · exact absurd (List.mem_map.mpr ⟨p, hp, rfl⟩) h3
    · intro h
      exact Or.inr (Or.inl ⟨p, hp, rfl, h⟩)
  · intro hall hcov2
    rw [List.eq_nil_iff_forall_not_mem]
    intro x hx
    unfold getStaleArticleIds at hx
    rw [staleFold_mem fresh [] (articlesAssoc db sourceId) hndf hndm x] at hx
    rcases hx with h | h | ⟨h1, h2⟩
    · simp at h
    · obtain ⟨q, hq, he, hc⟩ := h
      have hg := hall q hq
      rw [he] at hg
      rcases hc with hc | ⟨t, ht, hlt⟩
      · rw [hg] at hc
        exact Option.noConfusion hc
      · rw [hg] at ht
        injection ht with ht2
        omega
    · obtain ⟨q, hq, he⟩ := List.mem_map.mp h1
      exact h2 (he ▸ hcov2 q hq)

/-- Witness for `getStaleArticleIds_spec`: local articles 1 (at 100) and
2 (at 200) for source `"s"`; fetch reports article 1 at 150 (newer) and
article 3 at 50 (locally absent). -/
theorem getStaleArticleIds_spec_witness :
    (([((1 : Nat), (150 : Int)), (3, 50)].map Prod.fst).Nodup) ∧
    (((articlesAssoc ⟨[⟨1, "s", [], [], none, none, 100, 0⟩,
        ⟨2, "s", [], [], none, none, 200, 0⟩], [], [], 1, [("s", none)]⟩
        "s").map Prod.fst).Nodup) ∧
    (((1 : Nat), (150 : Int)) ∈ [((1 : Nat), (150 : Int)), (3, 50)]) ∧
    ((1 : Nat) ∈ getStaleArticleIds
        ⟨[⟨1, "s", [], [], none, none, 100, 0⟩,
          ⟨2, "s", [], [], none, none, 200, 0⟩], [], [], 1, [("s", none)]⟩
        "s" [(1, 150), (3, 50)] ↔
      (jsMapGet (articlesAssoc ⟨[⟨1, "s", [], [], none, none, 100, 0⟩,
          ⟨2, "s", [], [], none, none, 200, 0⟩], [], [], 1, [("s", none)]⟩
          "s") 1 = none ∨
        ∃ t, jsMapGet (articlesAssoc ⟨[⟨1, "s", [], [], none, none, 100, 0⟩,
          ⟨2, "s", [], [], none, none, 200, 0⟩], [], [], 1, [("s", none)]⟩
          "s") 1 = some t ∧ t < 150)) :=
  ⟨by decide, by decide, by decide,
    (getStaleArticleIds_spec
      ⟨[⟨1, "s", [], [], none, none, 100, 0⟩,
        ⟨2, "s", [], [], none, none, 200, 0⟩], [], [], 1, [("s", none)]⟩
      "s" [(1, 150), (3, 50)] (by decide) (by decide)).1 (1, 150) (by decide)⟩

set_option maxRecDepth 8000 in
/-- **C1 (code_bug)** — orphan pruning is skipped when no fetched article is
stale.  Local store for source `"s"`: articles 1, 2, 3 (all `updated_at`
100), article 3 owning chunk 7 and its `chunks_vec` row; the origin now
returns only articles 1 and 2, unchanged.  `getStaleArticleIds` flags the
removed article 3 (its own comment says remaining ids are added "so they get
removed"), but `syncSource` filters the stale set against the *fetched*
articles, finds nothing to process, and returns early (src/sync/index.ts
lines 70–85) without opening the storing transaction — the whole store,
article 3 and its chunk and embedding included, is left untouched, where the
claim and the spec scenario require their deletion.  Second scenario: if
article 2 is additionally updated at the origin (`updated_at` 200), the
transaction does run and article 3 and chunk 7 are deleted — but
`deleteArticle` relies on the foreign-key cascade, which does not cover the
`chunks_vec` virtual table, so the orphaned embedding row `(7, _)` survives
even then. -/
theorem syncSource_orphan_bug :
    getStaleArticleIds
        ⟨[⟨1, "s", [], [], none, none, 100, 0⟩, ⟨2, "s", [], [], none, none, 100, 0⟩,
          ⟨3, "s", [], [], none, none, 100, 0⟩],
         [⟨7, 3, "s", 0, [], 0⟩], [(7, [])], 8, [("s", none)]⟩
        "s" [(1, 100), (2, 100)] = [3] ∧
    syncSource id (fun _ => [])
        ⟨[⟨1, "s", [], [], none, none, 100, 0⟩, ⟨2, "s", [], [], none, none, 100, 0⟩,
          ⟨3, "s", [], [], none, none, 100, 0⟩],
         [⟨7, 3, "s", 0, [], 0⟩], [(7, [])], 8, [("s", none)]⟩
        "s" [⟨1, [], [], 0, 100, []⟩, ⟨2, [], [], 0, 100, []⟩] [] [] 500 50 false 999
      = ⟨[⟨1, "s", [], [], none, none, 100, 0⟩, ⟨2, "s", [], [], none, none, 100, 0⟩,
          ⟨3, "s", [], [], none, none, 100, 0⟩],
         [⟨7, 3, "s", 0, [], 0⟩], [(7, [])], 8, [("s", none)]⟩ ∧
    syncSource id (fun _ => [])
        ⟨[⟨1, "s", [], [], none, none, 100, 0⟩, ⟨2, "s", [], [], none, none, 100, 0⟩,
          ⟨3, "s", [], [], none, none, 100, 0⟩],
         [⟨7, 3, "s", 0, [], 0⟩], [(7, [])], 8, [("s", none)]⟩
        "s" [⟨1, [], [], 0, 100, []⟩, ⟨2, [], [], 0, 200, []⟩] [] [] 500 50 false 999
      = ⟨[⟨1, "s", [], [], none, none, 100, 0⟩, ⟨2, "s", [], [], none, none, 200, 999⟩],
         [⟨8, 2, "s", 0, ['#'], 1⟩], [(7, []), (8, [])], 9, [("s", some 999)]⟩ := by
  refine ⟨by decide, by decide, by decide⟩
